import Mathlib

/-!
Verification of the nous link scanner and link-graph resolver.

The Rust sources are embedded shallowly:

* bytes are `Nat` values (each < 256 in every use);
* a readable + seekable stream is a `List Nat` of the remaining bytes,
  together with the number of bytes consumed so far (the stream position);
* `src/wikilinks.rs` is modelled twice: a "flat" model in which each
  `fill_buf` returns all remaining bytes of the stream (the behaviour of a
  `BufReader` whose buffer holds the whole file), and a "chunked" model in
  which the underlying reader hands out the bytes in arbitrary chunks of
  size at least one, exactly as `BufReader::fill_buf`/`consume` would;
* the filesystem walking of `src/main.rs` is modelled on an inductive directory
  tree; opening a file yields `Option (List Nat)` (`none` = open failure);
* `error!` (src/error_macros.rs), which prints and exits the process, is
  modelled by returning `none` from the function that invokes it.
-/

/-! ## Byte-level primitives (memchr crate, core slice/str methods) -/

/-- Model of `memchr::memchr`: index of the first occurrence of byte `c`. -/
def memchr (c : Nat) : List Nat → Option Nat
  | [] => none
  | b :: r => if b == c then some 0 else (memchr c r).map (fun i => i + 1)

/-- Model of `memchr::memchr2`: index of the first occurrence of byte `c1` or `c2`. -/
def memchr2 (c1 c2 : Nat) : List Nat → Option Nat
  | [] => none
  | b :: r =>
    if b == c1 || b == c2 then some 0 else (memchr2 c1 c2 r).map (fun i => i + 1)

/-- Model of `u8::to_ascii_lowercase`. -/
def asciiLower (b : Nat) : Nat := if 65 ≤ b ∧ b ≤ 90 then b + 32 else b

/-- Model of `eq_ignore_ascii_case` on byte strings: equal after ASCII lowercasing
(equivalent to the Rust length check plus bytewise case-insensitive equality). -/
def eqIgnoreAsciiCase (a b : List Nat) : Bool :=
  a.map asciiLower == b.map asciiLower

/-- Model of `u8::is_ascii_whitespace`: space, tab, newline, form feed, carriage return. -/
def isAsciiWs (b : Nat) : Bool := b == 32 || b == 9 || b == 10 || b == 12 || b == 13

/-- Model of `<[u8]>::trim_ascii`: drop ASCII whitespace from both ends. -/
def trimAscii (l : List Nat) : List Nat :=
  ((l.dropWhile isAsciiWs).reverse.dropWhile isAsciiWs).reverse

/-- The truncation step of `extract_link_target`: truncate the body at the
first `|` (124) or `#` (35), if any (`memchr2` + `Vec::truncate`). -/
def truncPipeHash (l : List Nat) : List Nat :=
  match memchr2 124 35 l with
  | some i => l.take i
  | none => l

/-- A UTF-8 continuation byte: `0x80 ≤ b ≤ 0xBF`. -/
def isUtf8Cont (b : Nat) : Bool := 128 ≤ b && b ≤ 191

/-- Validity test of `String::from_utf8` (RFC 3629 well-formedness: no
overlong forms, no surrogates, nothing above U+10FFFF). -/
def isValidUtf8 : List Nat → Bool
  | [] => true
  | b :: r =>
    if b ≤ 127 then isValidUtf8 r
    else if 194 ≤ b && b ≤ 223 then
      match r with
      | c1 :: r' => isUtf8Cont c1 && isValidUtf8 r'
      | [] => false
    else if b == 224 then
      match r with
      | c1 :: c2 :: r' => (160 ≤ c1 && c1 ≤ 191) && isUtf8Cont c2 && isValidUtf8 r'
      | _ => false
    else if (225 ≤ b && b ≤ 236) || b == 238 || b == 239 then
      match r with
      | c1 :: c2 :: r' => isUtf8Cont c1 && isUtf8Cont c2 && isValidUtf8 r'
      | _ => false
    else if b == 237 then
      match r with
      | c1 :: c2 :: r' => (128 ≤ c1 && c1 ≤ 159) && isUtf8Cont c2 && isValidUtf8 r'
      | _ => false
    else if b == 240 then
      match r with
      | c1 :: c2 :: c3 :: r' =>
        (144 ≤ c1 && c1 ≤ 191) && isUtf8Cont c2 && isUtf8Cont c3 && isValidUtf8 r'
      | _ => false
    else if 241 ≤ b && b ≤ 243 then
      match r with
      | c1 :: c2 :: c3 :: r' =>
        isUtf8Cont c1 && isUtf8Cont c2 && isUtf8Cont c3 && isValidUtf8 r'
      | _ => false
    else if b == 244 then
      match r with
      | c1 :: c2 :: c3 :: r' =>
        (128 ≤ c1 && c1 ≤ 143) && isUtf8Cont c2 && isUtf8Cont c3 && isValidUtf8 r'
      | _ => false
    else false

/-- Whether byte `c` occurs at two immediately adjacent positions of `l`. -/
def hasAdj (c : Nat) : List Nat → Bool
  | a :: b :: r => (a == c && b == c) || hasAdj c (b :: r)
  | _ => false

/-! ## Flat model of src/wikilinks.rs

Here every `fill_buf` returns all remaining bytes of the stream.  Each
scanner function takes (and, where it matters, returns) the current stream
position `pos` (= `stream_position()`) and the remaining bytes. -/

theorem memchr_lt_length {c : Nat} :
    ∀ {s : List Nat} {i : Nat}, memchr c s = some i → i < s.length := by
  intro s
  induction s with
  | nil => intro i h; simp [memchr] at h
  | cons b r ih =>
    intro i h
    simp only [memchr] at h
    split at h
    · simp only [Option.some.injEq] at h
      subst h
      simp only [List.length_cons]
      omega
    · simp only [Option.map_eq_some'] at h
      obtain ⟨j, hj, rfl⟩ := h
      have := ih hj
      simp only [List.length_cons]
      omega

/-- Model of `skip_to_opening_tag` (src/wikilinks.rs lines 5–28) in the flat model.
Returns `some (tagPos, newPos, rest)` on success (`tagPos` is
`stream_position() - 2`), `none` for `Err(UnexpectedEof)`.  Note that the
source tests only `stage_two && used == 1` after consuming, so the test also
fires when only one byte (not a `[`) remained. -/
def skip_to_opening_tag (pos : Nat) (s : List Nat) (stageTwo : Bool) :
    Option (Nat × Nat × List Nat) :=
  match h : memchr 91 s with
  | some i =>
    if stageTwo && (i + 1 == 1) then
      some (pos + (i + 1) - 2, pos + (i + 1), s.drop (i + 1))
    else
      skip_to_opening_tag (pos + (i + 1)) (s.drop (i + 1)) true
  | none =>
    if h0 : s.length = 0 then none
    else
      if stageTwo && (s.length == 1) then
        some (pos + s.length - 2, pos + s.length, s.drop s.length)
      else
        skip_to_opening_tag (pos + s.length) (s.drop s.length) false
termination_by s.length
decreasing_by
  · have := memchr_lt_length h
    simp only [List.length_drop]
    omega
  · simp only [List.length_drop]
    omega

/-- One call of `BufRead::read_until` (delimiter 93) in the flat model: the bytes
read (up to and including the first 93, or everything if there is none)
and the remaining bytes. -/
def read_until_rb : List Nat → List Nat × List Nat
  | [] => ([], [])
  | b :: r =>
    if b == 93 then ([b], r)
    else (b :: (read_until_rb r).1, (read_until_rb r).2)

theorem read_until_rb_len :
    ∀ s : List Nat, (read_until_rb s).1.length + (read_until_rb s).2.length = s.length := by
  intro s
  induction s with
  | nil => simp [read_until_rb]
  | cons b r ih =>
    simp only [read_until_rb]
    split
    · show [b].length + r.length = (b :: r).length
      simp only [List.length_cons, List.length_nil]
      omega
    · show (b :: (read_until_rb r).1).length + (read_until_rb r).2.length = (b :: r).length
      simp only [List.length_cons]
      omega

/-- The loop of `read_to_closing_tag` (src/wikilinks.rs lines 34–41):
keep calling `read_until` with delimiter 93; a read of 1 breaks, a read of 0 is
`Err(UnexpectedEof)` (`none`). -/
def rtc_loop (buf rest : List Nat) : Option (List Nat × List Nat) :=
  if h1 : (read_until_rb rest).1.length = 1 then
    some (buf ++ (read_until_rb rest).1, (read_until_rb rest).2)
  else if h0 : (read_until_rb rest).1.length = 0 then none
  else rtc_loop (buf ++ (read_until_rb rest).1) (read_until_rb rest).2
termination_by rest.length
decreasing_by
  have := read_until_rb_len rest
  omega

/-- Model of `read_to_closing_tag` (src/wikilinks.rs lines 31–45): the initial
`read_until` outside the loop, then the loop, then the two `buf.pop()`
calls.  Returns `some (body, rest)` or `none` for `Err`. -/
def read_to_closing_tag (s : List Nat) : Option (List Nat × List Nat) :=
  match rtc_loop (read_until_rb s).1 (read_until_rb s).2 with
  | some p => some (p.1.dropLast.dropLast, p.2)
  | none => none

/-- Model of `extract_link_target` (src/wikilinks.rs lines 47–52): truncate at the
first `|`/`#`, trim ASCII whitespace, then `String::from_utf8` (`none` on
invalid UTF-8; the returned target is the byte string of the `String`). -/
def extract_link_target (buf : List Nat) : Option (List Nat) :=
  if isValidUtf8 (trimAscii (truncPipeHash buf)) then
    some (trimAscii (truncPipeHash buf))
  else none

theorem skip_eq_found (pos : Nat) (s : List Nat) (st : Bool) (i : Nat)
    (hm : memchr 91 s = some i) :
    skip_to_opening_tag pos s st =
      if st && (i + 1 == 1) then some (pos + (i + 1) - 2, pos + (i + 1), s.drop (i + 1))
      else skip_to_opening_tag (pos + (i + 1)) (s.drop (i + 1)) true := by
  rw [skip_to_opening_tag]
  split
  · next i' hm' =>
    rw [hm] at hm'
    cases hm'
    rfl
  · next hm' =>
    rw [hm] at hm'
    cases hm'

theorem skip_eq_none (pos : Nat) (s : List Nat) (st : Bool)
    (hm : memchr 91 s = none) :
    skip_to_opening_tag pos s st =
      if s.length = 0 then none
      else if st && (s.length == 1) then
        some (pos + s.length - 2, pos + s.length, s.drop s.length)
      else skip_to_opening_tag (pos + s.length) (s.drop s.length) false := by
  rw [skip_to_opening_tag]
  split
  · next i' hm' =>
    rw [hm] at hm'
    cases hm'
  · next hm' =>
    split
    · rfl
    · rfl

theorem skip_to_opening_tag_lt_aux :
    ∀ (n : Nat) {pos : Nat} {s : List Nat} {st : Bool} {q : Nat × Nat × List Nat},
      s.length ≤ n → skip_to_opening_tag pos s st = some q → q.2.2.length < s.length := by
  intro n
  induction n with
  | zero =>
    intro pos s st q hlen hq
    have hs : s = [] := List.length_eq_zero.mp (Nat.le_zero.mp hlen)
    subst hs
    rw [skip_eq_none pos [] st rfl] at hq
    simp at hq
  | succ n ih =>
    intro pos s st q hlen hq
    cases hm : memchr 91 s with
    | some i =>
      rw [skip_eq_found pos s st i hm] at hq
      have hi := memchr_lt_length hm
      by_cases hst : (st && (i + 1 == 1)) = true
      · rw [if_pos hst] at hq
        cases hq
        simp only [List.length_drop]
        omega
      · rw [if_neg hst] at hq
        have hlt : (s.drop (i + 1)).length ≤ n := by
          simp only [List.length_drop]
          omega
        have := ih hlt hq
        simp only [List.length_drop] at this
        omega
    | none =>
      rw [skip_eq_none pos s st hm] at hq
      by_cases h0 : s.length = 0
      · rw [if_pos h0] at hq
        cases hq
      · rw [if_neg h0] at hq
        by_cases hst : (st && (s.length == 1)) = true
        · rw [if_pos hst] at hq
          cases hq
          simp only [List.length_drop]
          omega
        · rw [if_neg hst] at hq
          have hlt : (s.drop s.length).length ≤ n := by
            simp only [List.length_drop]
            omega
          have := ih hlt hq
          simp only [List.length_drop] at this
          omega

theorem skip_to_opening_tag_lt {pos : Nat} {s : List Nat} {st : Bool}
    {q : Nat × Nat × List Nat} (h : skip_to_opening_tag pos s st = some q) :
    q.2.2.length < s.length :=
  skip_to_opening_tag_lt_aux s.length le_rfl h

theorem rtc_loop_le :
    ∀ {buf rest : List Nat} {p : List Nat × List Nat},
      rtc_loop buf rest = some p → p.2.length ≤ rest.length := by
  intro buf rest
  induction buf, rest using rtc_loop.induct with
  | case1 buf rest h1 =>
    intro p hp
    rw [rtc_loop, dif_pos h1] at hp
    cases hp
    have := read_until_rb_len rest
    simp only
    omega
  | case2 buf rest h1 h0 =>
    intro p hp
    rw [rtc_loop, dif_neg h1, dif_pos h0] at hp
    cases hp
  | case3 buf rest h1 h0 ih =>
    intro p hp
    rw [rtc_loop, dif_neg h1, dif_neg h0] at hp
    have := ih hp
    have := read_until_rb_len rest
    omega

theorem read_to_closing_tag_le :
    ∀ {s : List Nat} {p : List Nat × List Nat},
      read_to_closing_tag s = some p → p.2.length ≤ s.length := by
  intro s p hp
  rw [read_to_closing_tag] at hp
  split at hp
  · next q hq =>
    cases hp
    have := rtc_loop_le hq
    have := read_until_rb_len s
    simp only
    omega
  · cases hp

/-- The loop of `next_wikilink` (src/wikilinks.rs lines 54–65) in the flat
model.  Returns `some (tagPos, target, newPos, rest)` for the next
non-internal link occurrence, `none` when any step fails (`.ok()?`).
The new position is the old one plus the bytes consumed by
`read_to_closing_tag`. -/
def next_wikilink (pos : Nat) (s : List Nat) :
    Option (Nat × List Nat × Nat × List Nat) :=
  match h1 : skip_to_opening_tag pos s false with
  | none => none
  | some q =>
    match h2 : read_to_closing_tag q.2.2 with
    | none => none
    | some p =>
      match extract_link_target p.1 with
      | none => none
      | some tgt =>
        if tgt = [] then next_wikilink (q.2.1 + (q.2.2.length - p.2.length)) p.2
        else some (q.1, tgt, q.2.1 + (q.2.2.length - p.2.length), p.2)
termination_by s.length
decreasing_by
  have ha := skip_to_opening_tag_lt h1
  have hb := read_to_closing_tag_le h2
  omega

theorem next_wikilink_skip_none {pos : Nat} {s : List Nat}
    (h1 : skip_to_opening_tag pos s false = none) :
    next_wikilink pos s = none := by
  rw [next_wikilink]
  split
  · rfl
  · next q1 ha =>
    rw [h1] at ha
    cases ha

theorem next_wikilink_rtc_none {pos : Nat} {s : List Nat} {q1 : Nat × Nat × List Nat}
    (h1 : skip_to_opening_tag pos s false = some q1)
    (h2 : read_to_closing_tag q1.2.2 = none) :
    next_wikilink pos s = none := by
  rw [next_wikilink]
  split
  · next ha =>
    simp [h1] at ha
  · next q1' ha =>
    rw [h1] at ha
    cases ha
    split
    · rfl
    · next p hb =>
      simp [h2] at hb

theorem next_wikilink_ext_none {pos : Nat} {s : List Nat} {q1 : Nat × Nat × List Nat}
    {p : List Nat × List Nat}
    (h1 : skip_to_opening_tag pos s false = some q1)
    (h2 : read_to_closing_tag q1.2.2 = some p)
    (h3 : extract_link_target p.1 = none) :
    next_wikilink pos s = none := by
  rw [next_wikilink]
  split
  · next ha =>
    simp [h1] at ha
  · next q1' ha =>
    rw [h1] at ha
    cases ha
    split
    · next hb =>
      simp [h2] at hb
    · next p' hb =>
      rw [h2] at hb
      cases hb
      rw [h3]

theorem next_wikilink_internal {pos : Nat} {s : List Nat} {q1 : Nat × Nat × List Nat}
    {p : List Nat × List Nat}
    (h1 : skip_to_opening_tag pos s false = some q1)
    (h2 : read_to_closing_tag q1.2.2 = some p)
    (h3 : extract_link_target p.1 = some []) :
    next_wikilink pos s = next_wikilink (q1.2.1 + (q1.2.2.length - p.2.length)) p.2 := by
  rw [next_wikilink]
  split
  · next ha =>
    simp [h1] at ha
  · next q1' ha =>
    rw [h1] at ha
    cases ha
    split
    · next hb =>
      simp [h2] at hb
    · next p' hb =>
      rw [h2] at hb
      cases hb
      rw [h3]
      simp

theorem next_wikilink_found {pos : Nat} {s : List Nat} {q1 : Nat × Nat × List Nat}
    {p : List Nat × List Nat} {tgt : List Nat}
    (h1 : skip_to_opening_tag pos s false = some q1)
    (h2 : read_to_closing_tag q1.2.2 = some p)
    (h3 : extract_link_target p.1 = some tgt)
    (hemp : tgt ≠ []) :
    next_wikilink pos s =
      some (q1.1, tgt, q1.2.1 + (q1.2.2.length - p.2.length), p.2) := by
  rw [next_wikilink]
  split
  · next ha =>
    simp [h1] at ha
  · next q1' ha =>
    rw [h1] at ha
    cases ha
    split
    · next hb =>
      simp [h2] at hb
    · next p' hb =>
      rw [h2] at hb
      cases hb
      rw [h3]
      simp [hemp]

theorem next_wikilink_lt_aux :
    ∀ (n : Nat) {pos : Nat} {s : List Nat} {q : Nat × List Nat × Nat × List Nat},
      s.length ≤ n → next_wikilink pos s = some q → q.2.2.2.length < s.length := by
  intro n
  induction n with
  | zero =>
    intro pos s q hlen hq
    have hs : s = [] := List.length_eq_zero.mp (Nat.le_zero.mp hlen)
    subst hs
    have hsk : skip_to_opening_tag pos [] false = none := by
      rw [skip_eq_none pos [] false rfl]
      simp
    rw [next_wikilink_skip_none hsk] at hq
    cases hq
  | succ n ih =>
    intro pos s q hlen hq
    cases h1 : skip_to_opening_tag pos s false with
    | none =>
      rw [next_wikilink_skip_none h1] at hq
      cases hq
    | some q1 =>
      cases h2 : read_to_closing_tag q1.2.2 with
      | none =>
        rw [next_wikilink_rtc_none h1 h2] at hq
        cases hq
      | some p =>
        have hs1 := skip_to_opening_tag_lt h1
        have hs2 := read_to_closing_tag_le h2
        cases h3 : extract_link_target p.1 with
        | none =>
          rw [next_wikilink_ext_none h1 h2 h3] at hq
          cases hq
        | some tgt =>
          by_cases hemp : tgt = []
          · subst hemp
            rw [next_wikilink_internal h1 h2 h3] at hq
            have hlt : p.2.length ≤ n := by omega
            have := ih hlt hq
            omega
          · rw [next_wikilink_found h1 h2 h3 hemp] at hq
            cases hq
            simp only
            omega

theorem next_wikilink_lt {pos : Nat} {s : List Nat}
    {q : Nat × List Nat × Nat × List Nat} (h : next_wikilink pos s = some q) :
    q.2.2.2.length < s.length :=
  next_wikilink_lt_aux s.length le_rfl h

/-- Iterating `next_wikilink` (the `WikilinksIter` iterator): the list of
all yielded `(offset, target)` pairs from position `pos` on. -/
def wikilinks_from (pos : Nat) (s : List Nat) : List (Nat × List Nat) :=
  match h : next_wikilink pos s with
  | none => []
  | some q => (q.1, q.2.1) :: wikilinks_from q.2.2.1 q.2.2.2
termination_by s.length
decreasing_by
  have := next_wikilink_lt h
  omega

/-- Model of `read_wikilinks` (src/wikilinks.rs lines 80–83) in the flat model: all
link occurrences of a byte stream, scanned from position 0. -/
def read_wikilinks (s : List Nat) : List (Nat × List Nat) :=
  wikilinks_from 0 s

/-! ## Chunked model of src/wikilinks.rs

The same functions, but the stream is a list of chunks: each inner `read`
of the `BufReader` returns one chunk, and `fill_buf` returns the not yet
consumed part of the current chunk (empty only at end of stream, since
every chunk has size at least one).  This models scanning a stream whose
bytes arrive in arbitrary pieces.  The recursions are bounded by an
explicit fuel parameter, always instantiated large enough that it is never
exhausted on the inputs evaluated here. -/

/-- Total number of bytes left in the chunk list. -/
def totalLen (cs : List (List Nat)) : Nat := (cs.map List.length).sum

/-- Model of `BufReader::fill_buf`: the unconsumed part of the current chunk
(refilling happened when the previous chunk was dropped). -/
def fillBuf : List (List Nat) → List Nat
  | [] => []
  | c :: _ => c

/-- Model of `BufReader::consume n`: advance inside the current chunk; once the
chunk is exhausted the next `fill_buf` reads the next chunk. -/
def consumeChunks : List (List Nat) → Nat → List (List Nat)
  | [], _ => []
  | c :: rest, n => if n < c.length then c.drop n :: rest else rest

/-- Model of `skip_to_opening_tag` on a chunked stream (fuel-bounded). -/
def skip_to_opening_tag_ck (fuel : Nat) (pos : Nat) (cs : List (List Nat))
    (stageTwo : Bool) : Option (Nat × Nat × List (List Nat)) :=
  match fuel with
  | 0 => none
  | fuel + 1 =>
    match memchr 91 (fillBuf cs) with
    | some i =>
      if stageTwo && (i + 1 == 1) then
        some (pos + (i + 1) - 2, pos + (i + 1), consumeChunks cs (i + 1))
      else
        skip_to_opening_tag_ck fuel (pos + (i + 1)) (consumeChunks cs (i + 1)) true
    | none =>
      if (fillBuf cs).length = 0 then none
      else
        if stageTwo && ((fillBuf cs).length == 1) then
          some (pos + (fillBuf cs).length - 2, pos + (fillBuf cs).length,
            consumeChunks cs (fillBuf cs).length)
        else
          skip_to_opening_tag_ck fuel (pos + (fillBuf cs).length)
            (consumeChunks cs (fillBuf cs).length) false

/-- Model of `BufRead::read_until` (delimiter 93) on a chunked stream: loops over `fill_buf`
windows until the delimiter is found or the stream is exhausted. -/
def read_until_rb_ck (fuel : Nat) (cs : List (List Nat)) :
    List Nat × List (List Nat) :=
  match fuel with
  | 0 => ([], cs)
  | fuel + 1 =>
    match memchr 93 (fillBuf cs) with
    | some i => ((fillBuf cs).take (i + 1), consumeChunks cs (i + 1))
    | none =>
      if (fillBuf cs).length = 0 then ([], cs)
      else
        ((fillBuf cs) ++ (read_until_rb_ck fuel (consumeChunks cs (fillBuf cs).length)).1,
          (read_until_rb_ck fuel (consumeChunks cs (fillBuf cs).length)).2)

/-- The loop of `read_to_closing_tag` on a chunked stream. -/
def rtc_loop_ck (fuel : Nat) (buf : List Nat) (cs : List (List Nat)) :
    Option (List Nat × List (List Nat)) :=
  match fuel with
  | 0 => none
  | fuel + 1 =>
    if (read_until_rb_ck (totalLen cs + 1) cs).1.length = 1 then
      some (buf ++ (read_until_rb_ck (totalLen cs + 1) cs).1,
        (read_until_rb_ck (totalLen cs + 1) cs).2)
    else if (read_until_rb_ck (totalLen cs + 1) cs).1.length = 0 then none
    else
      rtc_loop_ck fuel (buf ++ (read_until_rb_ck (totalLen cs + 1) cs).1)
        (read_until_rb_ck (totalLen cs + 1) cs).2

/-- Model of `read_to_closing_tag` on a chunked stream. -/
def read_to_closing_tag_ck (cs : List (List Nat)) :
    Option (List Nat × List (List Nat)) :=
  match rtc_loop_ck (totalLen cs + 1) (read_until_rb_ck (totalLen cs + 1) cs).1
      (read_until_rb_ck (totalLen cs + 1) cs).2 with
  | some p => some (p.1.dropLast.dropLast, p.2)
  | none => none

/-- The loop of `next_wikilink` on a chunked stream. -/
def next_wikilink_ck (fuel : Nat) (pos : Nat) (cs : List (List Nat)) :
    Option (Nat × List Nat × Nat × List (List Nat)) :=
  match fuel with
  | 0 => none
  | fuel + 1 =>
    match skip_to_opening_tag_ck (totalLen cs + 2) pos cs false with
    | none => none
    | some q =>
      match read_to_closing_tag_ck q.2.2 with
      | none => none
      | some p =>
        match extract_link_target p.1 with
        | none => none
        | some tgt =>
          if tgt = [] then
            next_wikilink_ck fuel (q.2.1 + (totalLen q.2.2 - totalLen p.2)) p.2
          else some (q.1, tgt, q.2.1 + (totalLen q.2.2 - totalLen p.2), p.2)

/-- The iterator on a chunked stream. -/
def wikilinks_from_ck (fuel : Nat) (pos : Nat) (cs : List (List Nat)) :
    List (Nat × List Nat) :=
  match fuel with
  | 0 => []
  | fuel + 1 =>
    match next_wikilink_ck (totalLen cs + 1) pos cs with
    | none => []
    | some q => (q.1, q.2.1) :: wikilinks_from_ck fuel q.2.2.1 q.2.2.2

/-- Model of `read_wikilinks` on a chunked stream: all link occurrences of the byte
stream whose reads return the given chunks, scanned from position 0. -/
def read_wikilinks_ck (cs : List (List Nat)) : List (Nat × List Nat) :=
  wikilinks_from_ck (totalLen cs + 1) 0 cs

/-! ## Model of src/main.rs and src/config.rs

A filesystem is a tree of entries; names are byte strings (`OsStr`).  A
file carries `Option (List Nat)`: `some content` when `fs::File::open`
(and reading) succeeds, `none` when opening fails.  A walked entry records
the path (list of components from the parent of the walk root), whether it is a
file, and the openable content.  `error!`, which prints and exits with
status 1, is modelled by `none` results. -/

inductive FsEntry where
  | file (name : List Nat) (content : Option (List Nat)) : FsEntry
  | dir (name : List Nat) (children : List FsEntry) : FsEntry

structure WalkedEntry where
  path : List (List Nat)
  isFile : Bool
  content : Option (List Nat)
deriving DecidableEq, Repr

/-- Model of `config::SUPPORTED_EXTS`: md, markdown, org, txt, text. -/
def SUPPORTED_EXTS : List (List Nat) :=
  [[109, 100], [109, 97, 114, 107, 100, 111, 119, 110], [111, 114, 103],
   [116, 120, 116], [116, 101, 120, 116]]

/-- Model of `is_hidden` (src/main.rs lines 414–420): the entry name, when valid
UTF-8, starts with `.` (46); names that are not valid UTF-8 are never
considered hidden (`to_str()` fails and `unwrap_or(false)` applies). -/
def is_hidden (name : List Nat) : Bool :=
  if isValidUtf8 name then name.head? == some 46 else false

/-- Model of `Path::file_name` of a model path: its last component. -/
def pathFileName (p : List (List Nat)) : Option (List Nat) := p.getLast?

/-- Index of the last dot (46) in a name, if any (`rfind`). -/
def rfindDot (l : List Nat) : Option Nat :=
  (memchr 46 l.reverse).map (fun i => l.length - 1 - i)

/-- The Rust `split_file_at_dot`: a name of two dots is special-cased; otherwise split the
name at the last `.`, giving no extension when there is no `.` or when the
only `.` is leading. -/
def splitFileAtDot (name : List Nat) : List Nat × Option (List Nat) :=
  if name = [46, 46] then (name, none)
  else
    match rfindDot name with
    | none => (name, none)
    | some 0 => (name, none)
    | some (i + 1) => (name.take (i + 1), some (name.drop (i + 2)))

/-- Model of `Path::extension` of a model path. -/
def pathExtension (p : List (List Nat)) : Option (List Nat) :=
  (pathFileName p).bind (fun n => (splitFileAtDot n).2)

/-- Model of `Path::file_stem` of a model path. -/
def pathFileStem (p : List (List Nat)) : Option (List Nat) :=
  (pathFileName p).map (fun n => (splitFileAtDot n).1)

/-- The extension filter of `realm_walker` (src/main.rs lines 428–432). -/
def extMatches (p : List (List Nat)) : Bool :=
  match pathExtension p with
  | some e => SUPPORTED_EXTS.any (fun s => eqIgnoreAsciiCase e s)
  | none => false

mutual

/-- Model of `walkdir::WalkDir::new(root).into_iter().filter_entry(|e| !is_hidden(e))`:
depth-first traversal yielding each non-hidden entry (directories before
their children) and pruning the subtree of every hidden entry; the root
entry itself is subject to the filter.  `pre` is the path of the parent
directory of the walk root. -/
def walkEntry (pre : List (List Nat)) : FsEntry → List WalkedEntry
  | FsEntry.file n c =>
    if is_hidden n then [] else [⟨pre ++ [n], true, c⟩]
  | FsEntry.dir n cs =>
    if is_hidden n then []
    else ⟨pre ++ [n], false, none⟩ :: walkForest (pre ++ [n]) cs

/-- The children loop of the walk: entries of a directory in order. -/
def walkForest (pre : List (List Nat)) : List FsEntry → List WalkedEntry
  | [] => []
  | e :: es => walkEntry pre e ++ walkForest pre es

end

/-- Model of `realm_walker` (src/main.rs lines 413–433): the walk filtered to
entries whose extension case-insensitively matches a supported extension.
No `is_file` test is made here. -/
def realm_walker (pre : List (List Nat)) (root : FsEntry) : List WalkedEntry :=
  (walkEntry pre root).filter (fun w => extMatches w.path)

/-- Model of `find_node` (src/main.rs lines 435–442): walked entries whose file
stem case-insensitively equals the node name and which are files. -/
def find_node (pre : List (List Nat)) (root : FsEntry) (node : List Nat) :
    List WalkedEntry :=
  (realm_walker pre root).filter (fun w =>
    (match pathFileStem w.path with
     | some s => eqIgnoreAsciiCase s node
     | none => false) && w.isFile)

/-- Model of `find_node_once` (src/main.rs lines 444–455): take the first match;
if a second exists, `strict` causes `error!` (modelled `none`), otherwise
a warning is recorded and the first match is still returned.  The result
is `some (first?, warned)` in the non-fatal cases. -/
def find_node_once (pre : List (List Nat)) (root : FsEntry) (node : List Nat)
    (strict : Bool) : Option (Option WalkedEntry × Bool) :=
  match ((find_node pre root node).drop 1).head? with
  | some _ =>
    if strict then none
    else some ((find_node pre root node).head?, true)
  | none => some ((find_node pre root node).head?, false)

/-- Model of `list_backlinks` (src/main.rs lines 227–242): keep the walked entries
that open successfully and whose scan yields some target that equals the
queried node name ASCII-case-insensitively.  (The parallel `for_each`
printing is abstracted to the list of qualifying entries in traversal
order.) -/
def list_backlinks (pre : List (List Nat)) (root : FsEntry) (node : List Nat) :
    List WalkedEntry :=
  (realm_walker pre root).filter (fun w =>
    match w.content with
    | some c => (read_wikilinks c).any (fun oc => eqIgnoreAsciiCase node oc.2)
    | none => false)

/-- The Rust `str` ordering on byte strings (lexicographic by byte). -/
def listLt : List Nat → List Nat → Bool
  | [], [] => false
  | [], _ :: _ => true
  | _ :: _, [] => false
  | a :: as_, b :: bs => if a < b then true else if b < a then false else listLt as_ bs

/-- Insertion into a strictly ascending list, keeping it duplicate-free:
the effect of `BTreeSet::insert` on the sorted iteration order. -/
def insertSorted (x : List Nat) : List (List Nat) → List (List Nat)
  | [] => [x]
  | y :: ys =>
    if listLt x y then x :: y :: ys
    else if listLt y x then y :: insertSorted x ys
    else y :: ys

/-- Model of `collect::<BTreeSet<_>>()` followed by in-order iteration: fold the
targets into a sorted duplicate-free list. -/
def btreeCollect (ts : List (List Nat)) : List (List Nat) :=
  ts.foldl (fun acc t => insertSorted t acc) []

/-- Model of `list_forwardlinks` (src/main.rs lines 206–225): resolve the node
non-strictly; no backing file means nothing is printed (`some []`); a
backing file that fails to open is `error!` (`none`); otherwise the
targets of the scan, deduplicated through the `BTreeSet`, in its iteration
order.  (The per-target resolution/printing consumes this list.) -/
def list_forwardlinks (pre : List (List Nat)) (root : FsEntry) (node : List Nat) :
    Option (List (List Nat)) :=
  match find_node_once pre root node false with
  | none => none
  | some q =>
    match q.1 with
    | none => some []
    | some w =>
      match w.content with
      | none => none
      | some c => some (btreeCollect ((read_wikilinks c).map (fun oc => oc.2)))

/-! ## Characterization lemmas for the flat scanner -/

theorem hasAdj_append_right {c : Nat} (x : List Nat) {y : List Nat}
    (h : hasAdj c y = true) : hasAdj c (x ++ y) = true := by
  induction x with
  | nil => simpa
  | cons a x' ih =>
    cases hxy : x' ++ y with
    | nil =>
      have hy : y = [] := (List.append_eq_nil.mp hxy).2
      subst hy
      simp [hasAdj] at h
    | cons b r =>
      show hasAdj c (a :: (x' ++ y)) = true
      rw [hxy]
      rw [hxy] at ih
      simp [hasAdj, ih]

theorem hasAdj_cc {c : Nat} (x z : List Nat) : hasAdj c (x ++ c :: c :: z) = true :=
  hasAdj_append_right x (by simp [hasAdj])

theorem hasAdj_false_right {c : Nat} {x y : List Nat}
    (h : hasAdj c (x ++ y) = false) : hasAdj c y = false := by
  cases hy : hasAdj c y with
  | false => rfl
  | true =>
    have := hasAdj_append_right x hy
    rw [h] at this
    cases this

theorem split93 (l : List Nat) :
    (∀ b ∈ l, b ≠ 93) ∨ ∃ u v, l = u ++ 93 :: v ∧ ∀ b ∈ u, b ≠ 93 := by
  induction l with
  | nil => left; simp
  | cons a l' ih =>
    by_cases ha : a = 93
    · right
      exact ⟨[], l', by simp [ha], by simp⟩
    · cases ih with
      | inl h =>
        left
        intro b hb
        rcases List.mem_cons.mp hb with hb | hb
        · rw [hb]; exact ha
        · exact h b hb
      | inr h =>
        obtain ⟨u, v, rfl, hu⟩ := h
        right
        refine ⟨a :: u, v, by simp, ?_⟩
        intro b hb
        rcases List.mem_cons.mp hb with hb | hb
        · rw [hb]; exact ha
        · exact hu b hb

theorem read_until_rb_free {u : List Nat} (hu : ∀ b ∈ u, b ≠ 93) :
    read_until_rb u = (u, []) := by
  induction u with
  | nil => rfl
  | cons b r ih =>
    have hb : b ≠ 93 := hu b (by simp)
    have ihr := ih (fun x hx => hu x (by simp [hx]))
    simp [read_until_rb, hb, ihr]

theorem read_until_rb_split {u : List Nat} (v : List Nat) (hu : ∀ b ∈ u, b ≠ 93) :
    read_until_rb (u ++ 93 :: v) = (u ++ [93], v) := by
  induction u with
  | nil => simp [read_until_rb]
  | cons b r ih =>
    have hb : b ≠ 93 := hu b (by simp)
    have ihr := ih (fun x hx => hu x (by simp [hx]))
    simp [read_until_rb, hb, ihr]

theorem rtc_loop_break (buf v : List Nat) :
    rtc_loop buf (93 :: v) = some (buf ++ [93], v) := by
  rw [rtc_loop]
  simp [read_until_rb]

theorem rtc_loop_spec :
    ∀ (n : Nat) (w : List Nat), w.length ≤ n → w ≠ [] → w.head? ≠ some 93 →
      hasAdj 93 (w ++ [93]) = false →
      ∀ (v buf : List Nat),
        rtc_loop buf (w ++ 93 :: 93 :: v) = some (buf ++ w ++ [93, 93], v) := by
  intro n
  induction n with
  | zero =>
    intro w hl hne
    exact absurd (List.length_eq_zero.mp (Nat.le_zero.mp hl)) hne
  | succ n ih =>
    intro w hl hne hhead hadj v buf
    rcases split93 w with hfree | ⟨w1, w2, rfl, hw1⟩
    · have hru : read_until_rb (w ++ 93 :: (93 :: v)) = (w ++ [93], 93 :: v) :=
        read_until_rb_split _ hfree
      have hw0 : w.length ≠ 0 := fun h => hne (List.length_eq_zero.mp h)
      have hc1 : ¬ ((w ++ [93] : List Nat).length = 1) := by
        simp only [List.length_append, List.length_cons, List.length_nil]
        omega
      have hc0 : ¬ ((w ++ [93] : List Nat).length = 0) := by
        simp only [List.length_append, List.length_cons, List.length_nil]
        omega
      rw [rtc_loop]
      simp only [hru]
      rw [dif_neg hc1, dif_neg hc0]
      rw [rtc_loop_break]
      simp
    · have hw1ne : w1 ≠ [] := by
        intro h
        subst h
        simp at hhead
      have hw2ne : w2 ≠ [] := by
        intro h
        subst h
        rw [show (w1 ++ 93 :: ([] : List Nat)) ++ [93] = w1 ++ 93 :: 93 :: [] by simp] at hadj
        rw [hasAdj_cc] at hadj
        cases hadj
      have hw2head : w2.head? ≠ some 93 := by
        intro h
        cases w2 with
        | nil => simp at h
        | cons b w2' =>
          simp at h
          subst h
          rw [show (w1 ++ 93 :: 93 :: w2') ++ [93] = w1 ++ 93 :: 93 :: (w2' ++ [93]) by simp] at hadj
          rw [hasAdj_cc] at hadj
          cases hadj
      have hadj2 : hasAdj 93 (w2 ++ [93]) = false := by
        have : (w1 ++ 93 :: w2) ++ [93] = (w1 ++ [93]) ++ (w2 ++ [93]) := by simp
        rw [this] at hadj
        exact hasAdj_false_right hadj
      have hl2 : w2.length ≤ n := by
        have h1 : (w1 ++ 93 :: w2).length = w1.length + (w2.length + 1) := by
          simp [List.length_append]
        have h2 : w1.length ≠ 0 := fun h => hw1ne (List.length_eq_zero.mp h)
        omega
      have hru : read_until_rb (w1 ++ 93 :: (w2 ++ 93 :: 93 :: v)) = (w1 ++ [93], w2 ++ 93 :: 93 :: v) :=
        read_until_rb_split _ hw1
      have hshape : (w1 ++ 93 :: w2) ++ 93 :: 93 :: v = w1 ++ 93 :: (w2 ++ 93 :: 93 :: v) := by
        simp
      rw [hshape, rtc_loop]
      simp only [hru]
      have hw10 : w1.length ≠ 0 := fun h => hw1ne (List.length_eq_zero.mp h)
      have hc1 : ¬ ((w1 ++ [93] : List Nat).length = 1) := by
        simp only [List.length_append, List.length_cons, List.length_nil]
        omega
      have hc0 : ¬ ((w1 ++ [93] : List Nat).length = 0) := by
        simp only [List.length_append, List.length_cons, List.length_nil]
        omega
      rw [dif_neg hc1, dif_neg hc0]
      rw [ih w2 hl2 hw2ne hw2head hadj2 v (buf ++ (w1 ++ [93]))]
      simp

theorem dropLast_append_two (x : List Nat) (a b : Nat) :
    ((x ++ [a, b]).dropLast).dropLast = x := by
  induction x with
  | nil => rfl
  | cons c x' ih =>
    have h1 : (c :: x') ++ [a, b] = c :: (x' ++ [a, b]) := by simp
    rw [h1]
    have h2 : x' ++ [a, b] ≠ [] := by simp
    rw [List.dropLast_cons_of_ne_nil h2]
    have h3 : (x' ++ [a, b]).dropLast ≠ [] := by
      intro h
      have := congrArg List.length h
      simp at this
    rw [List.dropLast_cons_of_ne_nil h3]
    rw [ih]

theorem read_to_closing_spec {u : List Nat} (v : List Nat)
    (hadj : hasAdj 93 (u ++ [93]) = false) :
    read_to_closing_tag (u ++ 93 :: 93 :: v) = some (u, v) := by
  rcases split93 u with hfree | ⟨u1, u2, rfl, hu1⟩
  · have hru : read_until_rb (u ++ 93 :: (93 :: v)) = (u ++ [93], 93 :: v) :=
      read_until_rb_split _ hfree
    rw [read_to_closing_tag]
    simp only [hru]
    rw [rtc_loop_break]
    have h1 : (u ++ [93]) ++ [93] = u ++ [93, 93] := by simp
    rw [h1]
    show some ((u ++ [93, 93]).dropLast.dropLast, v) = some (u, v)
    rw [dropLast_append_two]
  · have hu2ne : u2 ≠ [] := by
      intro h
      subst h
      rw [show (u1 ++ 93 :: ([] : List Nat)) ++ [93] = u1 ++ 93 :: 93 :: [] by simp] at hadj
      rw [hasAdj_cc] at hadj
      cases hadj
    have hu2head : u2.head? ≠ some 93 := by
      intro h
      cases u2 with
      | nil => simp at h
      | cons b u2' =>
        simp at h
        subst h
        rw [show (u1 ++ 93 :: 93 :: u2') ++ [93] = u1 ++ 93 :: 93 :: (u2' ++ [93]) by simp] at hadj
        rw [hasAdj_cc] at hadj
        cases hadj
    have hadj2 : hasAdj 93 (u2 ++ [93]) = false := by
      have : (u1 ++ 93 :: u2) ++ [93] = (u1 ++ [93]) ++ (u2 ++ [93]) := by simp
      rw [this] at hadj
      exact hasAdj_false_right hadj
    have hru : read_until_rb (u1 ++ 93 :: (u2 ++ 93 :: 93 :: v)) = (u1 ++ [93], u2 ++ 93 :: 93 :: v) :=
      read_until_rb_split _ hu1
    have hshape : (u1 ++ 93 :: u2) ++ 93 :: 93 :: v = u1 ++ 93 :: (u2 ++ 93 :: 93 :: v) := by
      simp
    rw [hshape, read_to_closing_tag]
    simp only [hru]
    rw [rtc_loop_spec u2.length u2 le_rfl hu2ne hu2head hadj2 v (u1 ++ [93])]
    show some ((((u1 ++ [93]) ++ u2) ++ [93, 93]).dropLast.dropLast, v) = some (u1 ++ 93 :: u2, v)
    rw [dropLast_append_two]
    simp

theorem skip_open (pos : Nat) (r : List Nat) :
    skip_to_opening_tag pos (91 :: 91 :: r) false = some (pos, pos + 2, r) := by
  have h1 : memchr 91 (91 :: 91 :: r) = some 0 := by simp [memchr]
  rw [skip_eq_found pos (91 :: 91 :: r) false 0 h1]
  simp only [Bool.false_and, Bool.false_eq_true, if_false]
  have h2 : memchr 91 (91 :: r) = some 0 := by simp [memchr]
  show skip_to_opening_tag (pos + 1) (91 :: r) true = some (pos, pos + 2, r)
  rw [skip_eq_found (pos + 1) (91 :: r) true 0 h2]
  have h3 : pos + 1 + (0 + 1) - 2 = pos := by omega
  have h4 : pos + 1 + (0 + 1) = pos + 2 := by omega
  simp [h3, h4]

theorem stream_len_arith (pos : Nat) (body rest : List Nat) :
    pos + 2 + ((body ++ 93 :: 93 :: rest).length - rest.length) = pos + 4 + body.length := by
  simp only [List.length_append, List.length_cons]
  omega

/-- A well-formed link at the head of the stream, with a valid non-empty
target: one occurrence is produced at the position of the first `[`. -/
theorem next_wikilink_body_valid (tgt : List Nat) {pos : Nat} {body rest : List Nat}
    (hadj : hasAdj 93 (body ++ [93]) = false)
    (hx : extract_link_target body = some tgt) (hne : tgt ≠ []) :
    next_wikilink pos (91 :: 91 :: (body ++ 93 :: 93 :: rest)) =
      some (pos, tgt, pos + 4 + body.length, rest) := by
  have h1 := skip_open pos (body ++ 93 :: 93 :: rest)
  have h2 : read_to_closing_tag (body ++ 93 :: 93 :: rest) = some (body, rest) :=
    read_to_closing_spec rest hadj
  have h := next_wikilink_found h1 h2 hx hne
  rw [h]
  rw [stream_len_arith pos body rest]

/-- A well-formed link whose normalized target is empty (internal link):
the scanner continues right after the consumed closing tag. -/
theorem next_wikilink_body_internal {pos : Nat} {body rest : List Nat}
    (hadj : hasAdj 93 (body ++ [93]) = false)
    (hx : extract_link_target body = some []) :
    next_wikilink pos (91 :: 91 :: (body ++ 93 :: 93 :: rest)) =
      next_wikilink (pos + 4 + body.length) rest := by
  have h1 := skip_open pos (body ++ 93 :: 93 :: rest)
  have h2 : read_to_closing_tag (body ++ 93 :: 93 :: rest) = some (body, rest) :=
    read_to_closing_spec rest hadj
  have h := next_wikilink_internal h1 h2 hx
  rw [h]
  rw [stream_len_arith pos body rest]

/-- A well-formed link whose body does not normalize to valid UTF-8:
`extract_link_target` fails and the whole iteration step fails. -/
theorem next_wikilink_body_invalid {pos : Nat} {body rest : List Nat}
    (hadj : hasAdj 93 (body ++ [93]) = false)
    (hx : extract_link_target body = none) :
    next_wikilink pos (91 :: 91 :: (body ++ 93 :: 93 :: rest)) = none := by
  have h1 := skip_open pos (body ++ 93 :: 93 :: rest)
  have h2 : read_to_closing_tag (body ++ 93 :: 93 :: rest) = some (body, rest) :=
    read_to_closing_spec rest hadj
  exact next_wikilink_ext_none h1 h2 hx

theorem next_wikilink_nil (pos : Nat) : next_wikilink pos [] = none := by
  have hsk : skip_to_opening_tag pos [] false = none := by
    rw [skip_eq_none pos [] false rfl]
    simp
  exact next_wikilink_skip_none hsk

theorem wikilinks_from_none {pos : Nat} {s : List Nat}
    (h : next_wikilink pos s = none) : wikilinks_from pos s = [] := by
  rw [wikilinks_from]
  split
  · rfl
  · next q ha => simp [h] at ha

theorem wikilinks_from_some {pos : Nat} {s : List Nat} {q : Nat × List Nat × Nat × List Nat}
    (h : next_wikilink pos s = some q) :
    wikilinks_from pos s = (q.1, q.2.1) :: wikilinks_from q.2.2.1 q.2.2.2 := by
  rw [wikilinks_from]
  split
  · next ha => simp [h] at ha
  · next q' ha =>
    rw [h] at ha
    cases ha
    rfl

theorem wikilinks_from_nil (pos : Nat) : wikilinks_from pos [] = [] :=
  wikilinks_from_none (next_wikilink_nil pos)

theorem wikilinks_from_trans {pos pos' : Nat} {s rest : List Nat}
    (h : next_wikilink pos s = next_wikilink pos' rest) :
    wikilinks_from pos s = wikilinks_from pos' rest := by
  cases hn : next_wikilink pos' rest with
  | none => rw [wikilinks_from_none (h.trans hn), wikilinks_from_none hn]
  | some q => rw [wikilinks_from_some (h.trans hn), wikilinks_from_some hn]

/-- One produced occurrence followed by the scan of the remaining bytes. -/
theorem wikilinks_cons (tgt : List Nat) {pos : Nat} {body rest : List Nat}
    (hadj : hasAdj 93 (body ++ [93]) = false)
    (hx : extract_link_target body = some tgt) (hne : tgt ≠ []) :
    wikilinks_from pos (91 :: 91 :: (body ++ 93 :: 93 :: rest)) =
      (pos, tgt) :: wikilinks_from (pos + 4 + body.length) rest :=
  wikilinks_from_some (next_wikilink_body_valid tgt hadj hx hne)

/-- An internal link is skipped: the scan continues after its closing tag. -/
theorem wikilinks_skip_internal {pos : Nat} {body rest : List Nat}
    (hadj : hasAdj 93 (body ++ [93]) = false)
    (hx : extract_link_target body = some []) :
    wikilinks_from pos (91 :: 91 :: (body ++ 93 :: 93 :: rest)) =
      wikilinks_from (pos + 4 + body.length) rest :=
  wikilinks_from_trans (next_wikilink_body_internal hadj hx)

/-! ## Order lemmas for the `BTreeSet` model -/

theorem listLt_irrefl : ∀ l : List Nat, listLt l l = false := by
  intro l
  induction l with
  | nil => rfl
  | cons a as_ ih => simp [listLt, ih]

theorem listLt_trans :
    ∀ (a b c : List Nat), listLt a b = true → listLt b c = true → listLt a c = true := by
  intro a
  induction a with
  | nil =>
    intro b c hab hbc
    cases b with
    | nil => simp [listLt] at hab
    | cons y bs =>
      cases c with
      | nil => simp [listLt] at hbc
      | cons z cs => simp [listLt]
  | cons x as_ ih =>
    intro b c hab hbc
    cases b with
    | nil => simp [listLt] at hab
    | cons y bs =>
      cases c with
      | nil => simp [listLt] at hbc
      | cons z cs =>
        simp only [listLt] at hab hbc ⊢
        by_cases hxy : x < y
        · simp only [hxy, if_true] at hab
          by_cases hyz : y < z
          · rw [if_pos (by omega)]
          · simp only [hyz, if_false] at hbc
            by_cases hzy : z < y
            · simp [hzy] at hbc
            · have : z = y := by omega
              subst this
              rw [if_pos hxy]
        · simp only [hxy, if_false] at hab
          by_cases hyx : y < x
          · simp [hyx] at hab
          · have hx : x = y := by omega
            subst hx
            have hab' : listLt as_ bs = true := by simpa using hab
            by_cases hxz : x < z
            · rw [if_pos hxz]
            · simp only [hxz, if_false] at hbc ⊢
              by_cases hzx : z < x
              · simp [hzx] at hbc
              · simp only [hzx, if_false] at hbc ⊢
                exact ih bs cs hab' hbc

theorem listLt_conn :
    ∀ (a b : List Nat), listLt a b = false → listLt b a = false → a = b := by
  intro a
  induction a with
  | nil =>
    intro b hab _
    cases b with
    | nil => rfl
    | cons y bs => simp [listLt] at hab
  | cons x as_ ih =>
    intro b hab hba
    cases b with
    | nil => simp [listLt] at hba
    | cons y bs =>
      simp only [listLt] at hab hba
      by_cases hxy : x < y
      · simp [hxy] at hab
      · by_cases hyx : y < x
        · simp [hyx] at hba
        · have hx : x = y := by omega
          subst hx
          simp only [hxy, if_false, hyx] at hab hba
          rw [ih bs hab hba]

/-- Strictly ascending (hence duplicate-free) lists: the shape of a
`BTreeSet` iteration. -/
def sortedU : List (List Nat) → Bool
  | [] => true
  | [_] => true
  | x :: y :: r => listLt x y && sortedU (y :: r)

theorem sortedU_tail {x : List Nat} {l : List (List Nat)}
    (h : sortedU (x :: l) = true) : sortedU l = true := by
  cases l with
  | nil => rfl
  | cons y ys =>
    simp only [sortedU, Bool.and_eq_true] at h
    exact h.2

theorem sortedU_insert_aux :
    ∀ (l : List (List Nat)) (x y : List Nat), sortedU (y :: l) = true →
      listLt y x = true → sortedU (y :: insertSorted x l) = true := by
  intro l
  induction l with
  | nil =>
    intro x y _ hyx
    simp [insertSorted, sortedU, hyx]
  | cons z zs ih =>
    intro x y hs hyx
    simp only [sortedU, Bool.and_eq_true] at hs
    obtain ⟨hyz, hz⟩ := hs
    simp only [insertSorted]
    by_cases hxz : listLt x z = true
    · simp only [hxz, if_true]
      simp [sortedU, hyx, hxz, hz]
    · simp only [hxz, if_false]
      by_cases hzx : listLt z x = true
      · simp only [hzx, if_true]
        have := ih x z hz hzx
        simp [sortedU, hyz, this]
      · simp only [hzx, if_false]
        simp [sortedU, hyz, hz]

theorem sortedU_insert {x : List Nat} {l : List (List Nat)}
    (h : sortedU l = true) : sortedU (insertSorted x l) = true := by
  cases l with
  | nil => rfl
  | cons y ys =>
    simp only [insertSorted]
    by_cases hxy : listLt x y = true
    · simp only [hxy, if_true]
      simp [sortedU, hxy, h]
    · simp only [hxy, if_false]
      by_cases hyx : listLt y x = true
      · simp only [hyx, if_true]
        exact sortedU_insert_aux ys x y h hyx
      · simp only [hyx, if_false]
        exact h

theorem sortedU_head_lt :
    ∀ {l : List (List Nat)} {x y : List Nat}, sortedU (x :: l) = true → y ∈ l →
      listLt x y = true := by
  intro l
  induction l with
  | nil =>
    intro x y _ hy
    simp at hy
  | cons z zs ih =>
    intro x y hs hy
    simp only [sortedU, Bool.and_eq_true] at hs
    obtain ⟨hxz, hz⟩ := hs
    rcases List.mem_cons.mp hy with hy | hy
    · rw [hy]; exact hxz
    · exact listLt_trans x z y hxz (ih hz hy)

theorem sortedU_nodup : ∀ {l : List (List Nat)}, sortedU l = true → l.Nodup := by
  intro l
  induction l with
  | nil => intro; exact List.nodup_nil
  | cons x xs ih =>
    intro h
    refine List.nodup_cons.mpr ⟨?_, ih (sortedU_tail h)⟩
    intro hx
    have := sortedU_head_lt h hx
    rw [listLt_irrefl] at this
    cases this

theorem mem_insertSorted :
    ∀ {l : List (List Nat)} {x t : List Nat},
      t ∈ insertSorted x l ↔ t = x ∨ t ∈ l := by
  intro l
  induction l with
  | nil =>
    intro x t
    simp [insertSorted]
  | cons y ys ih =>
    intro x t
    simp only [insertSorted]
    by_cases hxy : listLt x y = true
    · simp only [hxy, if_true]
      constructor
      · intro h
        rcases List.mem_cons.mp h with h | h
        · left; exact h
        · right; exact h
      · intro h
        rcases h with h | h
        · exact List.mem_cons.mpr (Or.inl h)
        · exact List.mem_cons.mpr (Or.inr h)
    · simp only [hxy, if_false]
      by_cases hyx : listLt y x = true
      · simp only [hyx, if_true]
        constructor
        · intro h
          rcases List.mem_cons.mp h with h | h
          · right; exact List.mem_cons.mpr (Or.inl h)
          · rcases ih.mp h with h | h
            · left; exact h
            · right; exact List.mem_cons.mpr (Or.inr h)
        · intro h
          rcases h with h | h
          · exact List.mem_cons.mpr (Or.inr (ih.mpr (Or.inl h)))
          · rcases List.mem_cons.mp h with h | h
            · exact List.mem_cons.mpr (Or.inl h)
            · exact List.mem_cons.mpr (Or.inr (ih.mpr (Or.inr h)))
      · simp only [hyx, if_false]
        have hxy' : x = y := listLt_conn x y (by simpa using hxy) (by simpa using hyx)
        subst hxy'
        constructor
        · intro h
          right; exact h
        · intro h
          rcases h with h | h
          · rw [h]; exact List.mem_cons.mpr (Or.inl rfl)
          · exact h

theorem sortedU_foldl_insert :
    ∀ (ts : List (List Nat)) (acc : List (List Nat)), sortedU acc = true →
      sortedU (ts.foldl (fun acc t => insertSorted t acc) acc) = true := by
  intro ts
  induction ts with
  | nil => intro acc h; exact h
  | cons t ts' ih =>
    intro acc h
    exact ih (insertSorted t acc) (sortedU_insert h)

theorem sortedU_btreeCollect (ts : List (List Nat)) :
    sortedU (btreeCollect ts) = true :=
  sortedU_foldl_insert ts [] rfl

theorem mem_foldl_insert :
    ∀ (ts : List (List Nat)) (acc : List (List Nat)) (t : List Nat),
      t ∈ ts.foldl (fun acc t => insertSorted t acc) acc ↔ t ∈ acc ∨ t ∈ ts := by
  intro ts
  induction ts with
  | nil =>
    intro acc t
    simp
  | cons u ts' ih =>
    intro acc t
    simp only [List.foldl_cons]
    rw [ih]
    rw [mem_insertSorted]
    constructor
    · intro h
      rcases h with (h | h) | h
      · right; rw [h]; exact List.mem_cons.mpr (Or.inl rfl)
      · left; exact h
      · right; exact List.mem_cons.mpr (Or.inr h)
    · intro h
      rcases h with h | h
      · left; right; exact h
      · rcases List.mem_cons.mp h with h | h
        · left; left; exact h
        · right; exact h

theorem mem_btreeCollect (ts : List (List Nat)) (t : List Nat) :
    t ∈ btreeCollect ts ↔ t ∈ ts := by
  rw [btreeCollect, mem_foldl_insert]
  simp

/-! ## Shape of the walked entries (used for the enumeration claims) -/

theorem walk_shape (N : Nat) :
    (∀ e : FsEntry, sizeOf e ≤ N → ∀ pre w, w ∈ walkEntry pre e →
      ∃ suf, w.path = pre ++ suf ∧ suf ≠ [] ∧ ∀ n' ∈ suf, is_hidden n' = false) ∧
    (∀ cs : List FsEntry, sizeOf cs ≤ N → ∀ pre w, w ∈ walkForest pre cs →
      ∃ suf, w.path = pre ++ suf ∧ suf ≠ [] ∧ ∀ n' ∈ suf, is_hidden n' = false) := by
  induction N with
  | zero =>
    constructor
    · intro e he
      cases e <;> simp at he
    · intro cs hcs
      cases cs <;> simp at hcs
  | succ N ih =>
    constructor
    · intro e he pre w hw
      cases e with
      | file n c =>
        rw [walkEntry] at hw
        by_cases hn : is_hidden n = true
        · simp [hn] at hw
        · simp only [hn, Bool.false_eq_true, if_false, List.mem_singleton] at hw
          subst hw
          refine ⟨[n], rfl, by simp, ?_⟩
          intro n' hn'
          simp only [List.mem_singleton] at hn'
          subst hn'
          simpa using hn
      | dir n cs =>
        rw [walkEntry] at hw
        by_cases hn : is_hidden n = true
        · simp [hn] at hw
        · simp only [hn, Bool.false_eq_true, if_false, List.mem_cons] at hw
          rcases hw with hw | hw
          · subst hw
            refine ⟨[n], rfl, by simp, ?_⟩
            intro n' hn'
            simp only [List.mem_singleton] at hn'
            subst hn'
            simpa using hn
          · have hcs : sizeOf cs ≤ N := by
              simp only [FsEntry.dir.sizeOf_spec] at he
              omega
            obtain ⟨suf, hpath, hne, hhid⟩ := ih.2 cs hcs (pre ++ [n]) w hw
            refine ⟨n :: suf, ?_, by simp, ?_⟩
            · rw [hpath]
              simp
            · intro n' hn'
              rcases List.mem_cons.mp hn' with hn' | hn'
              · subst hn'
                simpa using hn
              · exact hhid n' hn'
    · intro cs hcs pre w hw
      cases cs with
      | nil =>
        rw [walkForest] at hw
        simp at hw
      | cons e es =>
        rw [walkForest] at hw
        rcases List.mem_append.mp hw with hw | hw
        · have he : sizeOf e ≤ N := by
            simp only [List.cons.sizeOf_spec] at hcs
            omega
          exact ih.1 e he pre w hw
        · have hes : sizeOf es ≤ N := by
            simp only [List.cons.sizeOf_spec] at hcs
            omega
          exact ih.2 es hes pre w hw

/-! ## Example realms

Concrete directory trees used to evaluate the resolver.  Names are ASCII
byte strings; comments give the text. -/

/-- realm/n.md containing "[[a]][[A]]". -/
def exampleRealm1 : FsEntry :=
  FsEntry.dir [114, 101, 97, 108, 109]
    [FsEntry.file [110, 46, 109, 100]
      (some [91, 91, 97, 93, 93, 91, 91, 65, 93, 93])]

/-- realm/note.md and realm/note.org, both empty: an ambiguous node. -/
def exampleRealm7 : FsEntry :=
  FsEntry.dir [114, 101, 97, 108, 109]
    [FsEntry.file [110, 111, 116, 101, 46, 109, 100] (some []),
     FsEntry.file [110, 111, 116, 101, 46, 111, 114, 103] (some [])]

/-- realm/d.md where d.md is a directory. -/
def exampleRealm9 : FsEntry :=
  FsEntry.dir [114, 101, 97, 108, 109] [FsEntry.dir [100, 46, 109, 100] []]

/-- realm/a.md, an empty file. -/
def exampleRealm9b : FsEntry :=
  FsEntry.dir [114, 101, 97, 108, 109] [FsEntry.file [97, 46, 109, 100] (some [])]

/-- realm/a.md, a file that cannot be opened. -/
def exampleRealm10 : FsEntry :=
  FsEntry.dir [114, 101, 97, 108, 109] [FsEntry.file [97, 46, 109, 100] none]

/-- Scanning "[[a]][[A]]": both occurrences, in offset order. -/
theorem scan_realm1 :
    read_wikilinks [91, 91, 97, 93, 93, 91, 91, 65, 93, 93] = [(0, [97]), (5, [65])] := by
  show wikilinks_from 0 (91 :: 91 :: ([97] ++ 93 :: 93 :: (91 :: 91 :: ([65] ++ 93 :: 93 :: [])))) = _
  rw [wikilinks_cons [97] (by decide) (by decide) (by decide)]
  rw [wikilinks_cons [65] (by decide) (by decide) (by decide), wikilinks_from_nil]
  decide

/-- Forward links of node n in `exampleRealm1`: the `BTreeSet` keeps both
"a" and "A". -/
theorem fl_realm1 : list_forwardlinks [] exampleRealm1 [110] = some [[65], [97]] := by
  have hf : find_node_once [] exampleRealm1 [110] false =
      some (some ⟨[[114, 101, 97, 108, 109], [110, 46, 109, 100]], true,
        some [91, 91, 97, 93, 93, 91, 91, 65, 93, 93]⟩, false) := by decide
  rw [list_forwardlinks, hf]
  show some (btreeCollect
      ((read_wikilinks [91, 91, 97, 93, 93, 91, 91, 65, 93, 93]).map (fun oc => oc.2))) = _
  rw [scan_realm1]
  decide


theorem lf_fatal_resolve (pre : List (List Nat)) (root : FsEntry) (node : List Nat)
    (hf : find_node_once pre root node false = none) :
    list_forwardlinks pre root node = none := by
  rw [list_forwardlinks]
  split
  · rfl
  · next q ha => simp [hf] at ha

theorem lf_nofile (pre : List (List Nat)) (root : FsEntry) (node : List Nat)
    (q : Option WalkedEntry × Bool)
    (hf : find_node_once pre root node false = some q) (hq : q.1 = none) :
    list_forwardlinks pre root node = some [] := by
  rw [list_forwardlinks]
  split
  · next ha => simp [hf] at ha
  · next q' ha =>
    rw [hf] at ha
    cases ha
    split
    · rfl
    · next w hb => simp [hq] at hb

theorem lf_openfail (pre : List (List Nat)) (root : FsEntry) (node : List Nat)
    (q : Option WalkedEntry × Bool) (w : WalkedEntry)
    (hf : find_node_once pre root node false = some q) (hq : q.1 = some w)
    (hc : w.content = none) :
    list_forwardlinks pre root node = none := by
  rw [list_forwardlinks]
  split
  · next ha => simp [hf] at ha
  · next q' ha =>
    rw [hf] at ha
    cases ha
    split
    · next hb => simp [hq] at hb
    · next w' hb =>
      rw [hq] at hb
      cases hb
      split
      · rfl
      · next c hcc => simp [hc] at hcc

theorem lf_content (pre : List (List Nat)) (root : FsEntry) (node : List Nat)
    (q : Option WalkedEntry × Bool) (w : WalkedEntry) (c : List Nat)
    (hf : find_node_once pre root node false = some q) (hq : q.1 = some w)
    (hc : w.content = some c) :
    list_forwardlinks pre root node =
      some (btreeCollect ((read_wikilinks c).map (fun oc => oc.2))) := by
  rw [list_forwardlinks]
  split
  · next ha => simp [hf] at ha
  · next q' ha =>
    rw [hf] at ha
    cases ha
    split
    · next hb => simp [hq] at hb
    · next w' hb =>
      rw [hq] at hb
      cases hb
      split
      · next hcc => simp [hc] at hcc
      · next c' hcc =>
        rw [hc] at hcc
        cases hcc
        rfl

/-! ## Claim theorems -/

/-- C1 (counterexample): the claim "the set of targets printed by
Forward-links contains no two targets that are equal under ASCII
case-insensitive comparison" is false: for the realm whose node n contains
"[[a]][[A]]", Forward-links prints both "A" (65) and "a" (97), which are
ASCII-case-insensitively equal but distinct. -/
theorem claim1_counterexample :
    list_forwardlinks [] exampleRealm1 [110] = some [[65], [97]] ∧
    eqIgnoreAsciiCase [65] [97] = true ∧ ([65] : List Nat) ≠ [97] :=
  ⟨fl_realm1, by decide, by decide⟩

/-- C1 (amended): the Forward-links target set collapses duplicate
occurrences whose targets are byte-for-byte equal (the printed list is
duplicate-free), and the `BTreeSet` collection keeps exactly the scanned
targets; targets differing only in ASCII letter case are NOT collapsed. -/
theorem claim1_theorem :
    (∀ (pre : List (List Nat)) (root : FsEntry) (node : List Nat) (ts : List (List Nat)),
      list_forwardlinks pre root node = some ts → ts.Nodup) ∧
    (∀ (ts : List (List Nat)) (t : List Nat), t ∈ btreeCollect ts ↔ t ∈ ts) := by
  constructor
  · intro pre root node ts h
    cases hf : find_node_once pre root node false with
    | none =>
      rw [lf_fatal_resolve pre root node hf] at h
      cases h
    | some q =>
      cases hq : q.1 with
      | none =>
        rw [lf_nofile pre root node q hf hq] at h
        simp only [Option.some.injEq] at h
        rw [← h]
        exact List.nodup_nil
      | some w =>
        cases hc : w.content with
        | none =>
          rw [lf_openfail pre root node q w hf hq hc] at h
          cases h
        | some c =>
          rw [lf_content pre root node q w c hf hq hc] at h
          simp only [Option.some.injEq] at h
          rw [← h]
          exact sortedU_nodup (sortedU_btreeCollect _)
  · exact mem_btreeCollect

/-- C1 (witness): the amended statement applied to `exampleRealm1`. -/
theorem claim1_witness : ([[65], [97]] : List (List Nat)).Nodup :=
  claim1_theorem.1 [] exampleRealm1 [110] [[65], [97]] fl_realm1

/-- C2: evaluation of the scanner at the failing input of the
chunk-boundary bug.  The stream "[ab]]" contains no adjacent pair of `[`
(hence no well-formed link, k = 0); read in one chunk the scanner yields no
occurrence, but read in the two chunks "[a" and "b]]" (sizes ≥ 1) it
yields one spurious occurrence (0, "b"): chunk-boundary invariance fails,
because `skip_to_opening_tag` returns whenever `used == 1` after a `[`,
even when the single consumed byte of a 1-byte buffer window is not `[`. -/
theorem claim2_theorem :
    hasAdj 91 [91, 97, 98, 93, 93] = false ∧
    read_wikilinks_ck [[91, 97, 98, 93, 93]] = [] ∧
    read_wikilinks_ck [[91, 97], [98, 93, 93]] = [(0, [98])] := by
  refine ⟨by decide, by decide, by decide⟩

/-- C3: the yielded target is the body truncated at the first `|` (124) or
`#` (35) and then ASCII-trimmed; when that normalization is empty the
occurrence is skipped and scanning continues after the consumed closing
tag.  In particular "[[Target]]", "[[Target|Alias Text]]" and
"[[Target#Heading]]" all yield target "Target" at offset 0, while
"[[#Heading]]" and "[[]]" yield no occurrence, and "[[]][[A]]" still
yields the later occurrence (4, "A"). -/
theorem claim3_theorem :
    (∀ (pos : Nat) (body rest : List Nat), hasAdj 93 (body ++ [93]) = false →
      isValidUtf8 (trimAscii (truncPipeHash body)) = true →
      (trimAscii (truncPipeHash body) ≠ [] →
        next_wikilink pos (91 :: 91 :: (body ++ 93 :: 93 :: rest)) =
          some (pos, trimAscii (truncPipeHash body), pos + 4 + body.length, rest)) ∧
      (trimAscii (truncPipeHash body) = [] →
        next_wikilink pos (91 :: 91 :: (body ++ 93 :: 93 :: rest)) =
          next_wikilink (pos + 4 + body.length) rest)) ∧
    read_wikilinks [91, 91, 84, 97, 114, 103, 101, 116, 93, 93] =
      [(0, [84, 97, 114, 103, 101, 116])] ∧
    read_wikilinks [91, 91, 84, 97, 114, 103, 101, 116, 124, 65, 108, 105, 97, 115,
        32, 84, 101, 120, 116, 93, 93] = [(0, [84, 97, 114, 103, 101, 116])] ∧
    read_wikilinks [91, 91, 84, 97, 114, 103, 101, 116, 35, 72, 101, 97, 100, 105,
        110, 103, 93, 93] = [(0, [84, 97, 114, 103, 101, 116])] ∧
    read_wikilinks [91, 91, 35, 72, 101, 97, 100, 105, 110, 103, 93, 93] = [] ∧
    read_wikilinks [91, 91, 93, 93] = [] ∧
    read_wikilinks [91, 91, 93, 93, 91, 91, 65, 93, 93] = [(4, [65])] := by
  refine ⟨?_, ?_, ?_, ?_, ?_, ?_, ?_⟩
  · intro pos body rest hadj hvalid
    constructor
    · intro hne
      exact next_wikilink_body_valid (trimAscii (truncPipeHash body)) hadj
        (by simp [extract_link_target, hvalid]) hne
    · intro hemp
      apply next_wikilink_body_internal hadj
      rw [extract_link_target, if_pos hvalid, hemp]
  · show wikilinks_from 0 (91 :: 91 :: ([84, 97, 114, 103, 101, 116] ++ 93 :: 93 :: [])) = _
    rw [wikilinks_cons [84, 97, 114, 103, 101, 116] (by decide) (by decide) (by decide),
      wikilinks_from_nil]
  · show wikilinks_from 0 (91 :: 91 :: ([84, 97, 114, 103, 101, 116, 124, 65, 108, 105,
      97, 115, 32, 84, 101, 120, 116] ++ 93 :: 93 :: [])) = _
    rw [wikilinks_cons [84, 97, 114, 103, 101, 116] (by decide) (by decide) (by decide),
      wikilinks_from_nil]
  · show wikilinks_from 0 (91 :: 91 :: ([84, 97, 114, 103, 101, 116, 35, 72, 101, 97,
      100, 105, 110, 103] ++ 93 :: 93 :: [])) = _
    rw [wikilinks_cons [84, 97, 114, 103, 101, 116] (by decide) (by decide) (by decide),
      wikilinks_from_nil]
  · show wikilinks_from 0 (91 :: 91 :: ([35, 72, 101, 97, 100, 105, 110, 103] ++ 93 :: 93 :: [])) = _
    rw [wikilinks_skip_internal (by decide) (by decide), wikilinks_from_nil]
  · show wikilinks_from 0 (91 :: 91 :: ([] ++ 93 :: 93 :: [])) = _
    rw [wikilinks_skip_internal (by decide) (by decide), wikilinks_from_nil]
  · show wikilinks_from 0 (91 :: 91 :: ([] ++ 93 :: 93 :: (91 :: 91 :: ([65] ++ 93 :: 93 :: [])))) = _
    rw [wikilinks_skip_internal (by decide) (by decide)]
    rw [wikilinks_cons [65] (by decide) (by decide) (by decide), wikilinks_from_nil]
    decide

/-- C3 (witness): the normalization equation applied to the body "T". -/
theorem claim3_witness :
    next_wikilink 0 (91 :: 91 :: ([84] ++ 93 :: 93 :: [])) =
      some (0, trimAscii (truncPipeHash [84]), 0 + 4 + [84].length, []) :=
  (claim3_theorem.1 0 [84] [] (by decide) (by decide)).1 (by decide)

/-- C4 (counterexample): the claim "if the accumulated bytes between the
tags are not valid UTF-8, no occurrence is yielded and extraction ends" is
false: the body "a|\xFF" (97, 124, 255) is not valid UTF-8, yet scanning
"[[a|\xFF]]" yields the occurrence (0, "a"), because the code validates
only the part before the first `|`/`#` after truncation and trimming. -/
theorem claim4_counterexample :
    isValidUtf8 [97, 124, 255] = false ∧
    read_wikilinks [91, 91, 97, 124, 255, 93, 93] = [(0, [97])] := by
  constructor
  · decide
  · show wikilinks_from 0 (91 :: 91 :: ([97, 124, 255] ++ 93 :: 93 :: [])) = _
    rw [wikilinks_cons [97] (by decide) (by decide) (by decide), wikilinks_from_nil]

/-- C4 (amended): if the body truncated at the first `|`/`#` and
ASCII-trimmed is not valid UTF-8, then no occurrence is yielded for the
link and iteration ends there, exactly like end-of-stream. -/
theorem claim4_theorem (pos : Nat) (body rest : List Nat)
    (hadj : hasAdj 93 (body ++ [93]) = false)
    (hinv : isValidUtf8 (trimAscii (truncPipeHash body)) = false) :
    next_wikilink pos (91 :: 91 :: (body ++ 93 :: 93 :: rest)) = none ∧
    wikilinks_from pos (91 :: 91 :: (body ++ 93 :: 93 :: rest)) = [] := by
  have hx : extract_link_target body = none := by
    rw [extract_link_target, if_neg (by rw [hinv]; exact Bool.false_ne_true)]
  refine ⟨next_wikilink_body_invalid hadj hx, wikilinks_from_none (next_wikilink_body_invalid hadj hx)⟩

/-- C4 (witness): the amended statement at the body "\xFF". -/
theorem claim4_witness :
    next_wikilink 0 (91 :: 91 :: ([255] ++ 93 :: 93 :: [])) = none ∧
    wikilinks_from 0 (91 :: 91 :: ([255] ++ 93 :: 93 :: [])) = [] :=
  claim4_theorem 0 [255] [] (by decide) (by decide)

/-- C5: a lone `]` inside the body, not immediately followed by another
`]`, is consumed as ordinary content and the search for the closing pair
continues: for any body of the shape b1 ++ "]" ++ c :: b2 (c not `]`)
without an adjacent closing pair, `read_to_closing_tag` returns the whole
body; in particular "[[a]b]]" yields exactly the occurrence (0, "a]b"). -/
theorem claim5_theorem :
    (∀ (b1 b2 rest : List Nat) (c : Nat), c ≠ 93 →
      hasAdj 93 ((b1 ++ 93 :: c :: b2) ++ [93]) = false →
      read_to_closing_tag ((b1 ++ 93 :: c :: b2) ++ 93 :: 93 :: rest) =
        some (b1 ++ 93 :: c :: b2, rest)) ∧
    read_wikilinks [91, 91, 97, 93, 98, 93, 93] = [(0, [97, 93, 98])] := by
  constructor
  · intro b1 b2 rest c _ hadj
    exact read_to_closing_spec rest hadj
  · show wikilinks_from 0 (91 :: 91 :: ([97, 93, 98] ++ 93 :: 93 :: [])) = _
    rw [wikilinks_cons [97, 93, 98] (by decide) (by decide) (by decide), wikilinks_from_nil]

/-- C5 (witness): the general part applied to the body "a]b". -/
theorem claim5_witness :
    read_to_closing_tag (([97] ++ 93 :: 98 :: []) ++ 93 :: 93 :: []) =
      some ([97] ++ 93 :: 98 :: [], []) :=
  claim5_theorem.1 [97] [] [] 98 (by decide) (by decide)

/-- C6 (code bug evaluation): the stream "[[a]x" (no closing pair `]]`
anywhere) ends before the opened link is closed, yet the scanner yields
the occurrence (0, "a"): the loop of `read_to_closing_tag` breaks when a
`read_until` call returns exactly one byte, which also happens for a
single non-`]` byte at end of stream, so "]x" at EOF is taken for a
closing tag instead of producing `UnexpectedEof`. -/
theorem claim6_theorem :
    hasAdj 93 [91, 91, 97, 93, 120] = false ∧
    read_wikilinks [91, 91, 97, 93, 120] = [(0, [97])] := by
  constructor
  · decide
  · have hsk := skip_open 0 [97, 93, 120]
    have hru : read_until_rb [97, 93, 120] = ([97, 93], [120]) := by decide
    have hloop : rtc_loop [97, 93] [120] = some ([97, 93, 120], []) := by
      rw [rtc_loop]
      simp [read_until_rb]
    have hrtc : read_to_closing_tag [97, 93, 120] = some ([97], []) := by
      rw [read_to_closing_tag]
      simp only [hru]
      rw [hloop]
      rfl
    have hnx := next_wikilink_found hsk hrtc
      (by decide : extract_link_target [97] = some [97])
      (by decide : ([97] : List Nat) ≠ [])
    show wikilinks_from 0 (91 :: 91 :: [97, 93, 120]) = _
    rw [wikilinks_from_some hnx, wikilinks_from_nil]

/-- C7: with at least two matching backing files, strict resolution is
fatal (`none`) while non-strict resolution warns and returns the first
match in enumeration order; with zero or one match both modes return the
first (possibly absent) match with no warning. -/
theorem claim7_theorem (pre : List (List Nat)) (root : FsEntry) (node : List Nat) :
    (2 ≤ (find_node pre root node).length →
      find_node_once pre root node true = none ∧
      find_node_once pre root node false =
        some ((find_node pre root node).head?, true)) ∧
    ((find_node pre root node).length ≤ 1 →
      find_node_once pre root node true =
        some ((find_node pre root node).head?, false) ∧
      find_node_once pre root node false =
        some ((find_node pre root node).head?, false)) := by
  cases hms : find_node pre root node with
  | nil =>
    constructor
    · intro hlen
      simp only [List.length_nil] at hlen
      omega
    · intro _
      constructor
      · rw [find_node_once, hms]
        rfl
      · rw [find_node_once, hms]
        rfl
  | cons m tail =>
    cases tail with
    | nil =>
      constructor
      · intro hlen
        simp only [List.length_cons, List.length_nil] at hlen
        omega
      · intro _
        constructor
        · rw [find_node_once, hms]
          rfl
        · rw [find_node_once, hms]
          rfl
    | cons m2 rest =>
      constructor
      · intro _
        constructor
        · rw [find_node_once, hms]
          rfl
        · rw [find_node_once, hms]
          rfl
      · intro hlen
        simp only [List.length_cons] at hlen
        omega

/-- C7 (witness): the realm with note.md and note.org, queried for "note". -/
theorem claim7_witness :
    find_node_once [] exampleRealm7 [110, 111, 116, 101] true = none ∧
    find_node_once [] exampleRealm7 [110, 111, 116, 101] false =
      some ((find_node [] exampleRealm7 [110, 111, 116, 101]).head?, true) :=
  (claim7_theorem [] exampleRealm7 [110, 111, 116, 101]).1 (by decide)

/-- C8: a walked entry is a back-link of `node` exactly when it is in the
enumeration, its file opens (content present), and some scanned occurrence
has a target ASCII-case-insensitively equal to `node`; entries that fail
to open are excluded and the query itself is total (never fatal). -/
theorem claim8_theorem (pre : List (List Nat)) (root : FsEntry) (node : List Nat)
    (w : WalkedEntry) :
    w ∈ list_backlinks pre root node ↔
      w ∈ realm_walker pre root ∧
      ∃ c, w.content = some c ∧
        ∃ oc ∈ read_wikilinks c, eqIgnoreAsciiCase node oc.2 = true := by
  have key : ∀ o : Option (List Nat),
      (match o with
       | some c => (read_wikilinks c).any (fun oc => eqIgnoreAsciiCase node oc.2)
       | none => false) = true ↔
      ∃ c, o = some c ∧ ∃ oc ∈ read_wikilinks c, eqIgnoreAsciiCase node oc.2 = true := by
    intro o
    cases o with
    | none => simp
    | some c => simp [List.any_eq_true]
  rw [list_backlinks, List.mem_filter]
  constructor
  · rintro ⟨hw, hp⟩
    exact ⟨hw, (key w.content).mp hp⟩
  · rintro ⟨hw, hex⟩
    exact ⟨hw, (key w.content).mpr hex⟩

/-- C9 (counterexample): the claim "every path yielded by the realm
enumeration is a file (not a directory)" is false: in the realm containing
only the sub-directory d.md, the enumeration yields exactly the entry for
that directory (`isFile = false`), since `realm_walker` filters on the
extension but never tests `is_file`. -/
theorem claim9_counterexample :
    realm_walker [] exampleRealm9 =
      [⟨[[114, 101, 97, 108, 109], [100, 46, 109, 100]], false, none⟩] := by
  decide

/-- C9 (amended): every yielded entry (file OR directory) has an extension
that ASCII-case-insensitively matches a supported extension, and its path
extends the walk prefix by non-hidden components only (hidden meaning: the
component name is valid UTF-8 and starts with '.'). -/
theorem claim9_theorem (pre : List (List Nat)) (root : FsEntry) (w : WalkedEntry)
    (hw : w ∈ realm_walker pre root) :
    extMatches w.path = true ∧
    ∃ suf, w.path = pre ++ suf ∧ suf ≠ [] ∧ ∀ n' ∈ suf, is_hidden n' = false := by
  rw [realm_walker, List.mem_filter] at hw
  obtain ⟨hmem, hext⟩ := hw
  exact ⟨hext, (walk_shape (sizeOf root)).1 root le_rfl pre w hmem⟩

/-- C9 (witness): the amended statement at the realm containing a.md. -/
theorem claim9_witness :
    extMatches [[114, 101, 97, 108, 109], [97, 46, 109, 100]] = true ∧
    ∃ suf, ([[114, 101, 97, 108, 109], [97, 46, 109, 100]] : List (List Nat)) = [] ++ suf ∧
      suf ≠ [] ∧ ∀ n' ∈ suf, is_hidden n' = false :=
  claim9_theorem [] exampleRealm9b
    ⟨[[114, 101, 97, 108, 109], [97, 46, 109, 100]], true, some []⟩ (by decide)

/-- C10: when the node resolves (non-strictly) to a backing file whose
open fails, Forward-links is fatal (`error!`, modelled `none`: no partial
output), whereas Back-links never includes that entry and stays total. -/
theorem claim10_theorem (pre : List (List Nat)) (root : FsEntry) (node q : List Nat)
    (w : WalkedEntry) (warn : Bool)
    (hf : find_node_once pre root node false = some (some w, warn))
    (hc : w.content = none) :
    list_forwardlinks pre root node = none ∧ w ∉ list_backlinks pre root q := by
  constructor
  · exact lf_openfail pre root node (some w, warn) w hf rfl hc
  · intro hmem
    rw [list_backlinks, List.mem_filter] at hmem
    obtain ⟨hw, hp⟩ := hmem
    have hp' : (match w.content with
       | some c => (read_wikilinks c).any (fun oc => eqIgnoreAsciiCase q oc.2)
       | none => false) = true := hp
    simp [hc] at hp'

/-- C10 (witness): the realm whose only node file a.md cannot be opened. -/
theorem claim10_witness :
    list_forwardlinks [] exampleRealm10 [97] = none ∧
    (⟨[[114, 101, 97, 108, 109], [97, 46, 109, 100]], true, none⟩ : WalkedEntry) ∉
      list_backlinks [] exampleRealm10 [97] :=
  claim10_theorem [] exampleRealm10 [97] [97]
    ⟨[[114, 101, 97, 108, 109], [97, 46, 109, 100]], true, none⟩ false
    (by decide) rfl
